import Mathlib

/-!
Verification of the SigPro signal-processing orchestration layer.

This development shallowly embeds the two source files of the repository:

* `sigpro/process_signals.py` — the pipeline builder (`_build_pipeline`),
  the row applier (`_apply_pipeline`) and the orchestrator
  (`process_signals`);
* `sigpro/transformations/frequency/fft.py` — the `fft_real` primitive.

Python dictionaries are embedded as association lists in insertion order,
Python numbers are idealised as rationals (reals where the mathematics
forces it), and the external `mlblocks` collaborator (primitive lookup and
pipeline execution) is kept as an explicit black-box parameter, with
exceptions embedded as `Except`.
-/

/-! ## Definitions

The shallow embedding of the two source files, the black-box collaborator
interfaces, the spec-side formulas the claims compare against, and the
concrete fixtures the witnesses evaluate. -/

def digitVal (c : Char) : ℕ := c.toNat - 48

def digitsVal (cs : List Char) : ℕ := cs.foldl (fun a c => 10 * a + digitVal c) 0

/-- A Python value as it appears in a dataframe cell or as a sampling
frequency: a number, a string (column reference), or a list of signal
amplitude values. -/
inductive PyVal where
  | num : ℚ → PyVal
  | str : String → PyVal
  | numList : List ℚ → PyVal
deriving DecidableEq

/-- The result of `pipeline.predict`: either a Python tuple of values or a
single non-tuple value (the code tests `isinstance(output, tuple)`). -/
inductive PyOut where
  | tuple : List PyVal → PyOut
  | single : PyVal → PyOut
deriving DecidableEq

/-- Errors: a `KeyError` from a row/column lookup, or whatever error the
external primitive-lookup / primitive-execution collaborator raises. -/
inductive Err where
  | keyError : String → Err
  | primitiveError : String → Err
deriving DecidableEq

/-- An `init_params` dictionary (opaque contents: parameter name/value pairs). -/
abbrev Params := List (String × String)

/-- A transformation or aggregation specification:
`{name, primitive, init_params?}` (`transformation.get('init_params')`
yields `none` when the key is absent). -/
structure Step where
  name : String
  primitive : String
  init_params : Option Params
deriving DecidableEq

/-- A declared pipeline output `{'name': ..., 'variable': ...}`; the field
`var` embeds the `'variable'` key (a Lean keyword). -/
structure OutputSpec where
  name : String
  var : String
deriving DecidableEq

/-- The `MLPipeline(primitives, init_params=..., outputs={'default': outputs})`
object constructed by `_build_pipeline`, restricted to the three arguments the
builder supplies (the `'default'` key of the outputs dict is flattened). -/
structure BuiltPipeline where
  primitives : List String
  init_params : List (String × Params)
  outputs : List OutputSpec
deriving DecidableEq

/-- Python dict truthiness of `transformation.get('init_params')`:
`None` and `{}` are falsy. -/
def truthy : Option Params → Bool
  | none => false
  | some ps => !ps.isEmpty

/-- Python dict assignment `d[k] = v`: overwrite in place if the key exists,
else append in insertion order. -/
def dictInsert {α : Type _} (d : List (String × α)) (k : String) (v : α) :
    List (String × α) :=
  if d.any (fun p => p.1 == k) then
    d.map (fun p => if p.1 == k then (k, v) else p)
  else d ++ [(k, v)]

/-- `collections.Counter` update `counter[p] += 1`. -/
def incr (c : String → ℕ) (p : String) : String → ℕ :=
  fun s => if s = p then c s + 1 else c s

/-- The local mutable state of `_build_pipeline` (its five locals:
`primitives`, `init_params`, `prefix` as a list of names, `counter`,
`outputs`). -/
structure BState where
  primitives : List String
  init_params : List (String × Params)
  pfxNames : List String
  counter : String → ℕ
  outputs : List OutputSpec

/-- One iteration of the transformation loop of `_build_pipeline`
(`process_signals.py` lines 40-48). -/
def transStep (st : BState) (t : Step) : BState :=
  let pfxNames := st.pfxNames ++ [t.name]
  let primitive := t.primitive
  let counter := incr st.counter primitive
  let primitive_name := primitive ++ "#" ++ Nat.repr (counter primitive)
  let primitives := st.primitives ++ [primitive]
  let init_params :=
    if truthy t.init_params then dictInsert st.init_params primitive_name (t.init_params.getD [])
    else st.init_params
  { primitives := primitives, init_params := init_params, pfxNames := pfxNames,
    counter := counter, outputs := st.outputs }

/-- One iteration of the aggregation loop of `_build_pipeline`
(`process_signals.py` lines 53-73); `load_primitive` is the external
lookup collaborator resolving a primitive identifier to its declared
`produce.output` field names, raising on unknown identifiers. -/
def aggStep (load_primitive : String → Except Err (List String)) (pfx : String)
    (st : BState) (a : Step) : Except Err BState := do
  let aggregation_name := pfx ++ "." ++ a.name
  let primitive := a.primitive
  let counter := incr st.counter primitive
  let primitive_name := primitive ++ "#" ++ Nat.repr (counter primitive)
  let primitives := st.primitives ++ [primitive]
  let primitive_outputs ← load_primitive primitive
  let outputs := st.outputs ++ primitive_outputs.map (fun output =>
    { name := aggregation_name ++ "." ++ output, var := primitive_name ++ "." ++ output : OutputSpec })
  let init_params :=
    if truthy a.init_params then dictInsert st.init_params primitive_name (a.init_params.getD [])
    else st.init_params
  return { primitives := primitives, init_params := init_params, pfxNames := st.pfxNames,
           counter := counter, outputs := outputs }

/-- `_build_pipeline(transformations, aggregations)`
(`process_signals.py` lines 10-79): the transformation loop, the computation
of the dotted name prefix, the aggregation loop, and the `MLPipeline`
construction. -/
def _build_pipeline (load_primitive : String → Except Err (List String))
    (transformations aggregations : List Step) : Except Err BuiltPipeline := do
  let st := transformations.foldl transStep
    { primitives := [], init_params := [], pfxNames := [], counter := fun _ => 0, outputs := [] }
  let pfx := String.intercalate "." st.pfxNames
  let st ← aggregations.foldlM (aggStep load_primitive pfx) st
  return { primitives := st.primitives, init_params := st.init_params, outputs := st.outputs }

/-- A dataframe row: column name / value pairs in column order. -/
abbrev Row := List (String × PyVal)

/-- `row[key]` on a pandas Series: the value at the first matching label,
`KeyError` if absent. -/
def rowGet (row : Row) (key : String) : Except Err PyVal :=
  match row.find? (fun p => p.1 == key) with
  | some p => .ok p.2
  | none => .error (.keyError key)

/-- Modelled from the spec: `pipeline.get_output_names()` of the external
`mlblocks` collaborator returns the pipeline's declared output names (the
`name` entries of the outputs the builder registered). -/
def get_output_names (pipeline : BuiltPipeline) : List String :=
  pipeline.outputs.map (fun o => o.name)

/-- `dict(zip(output_names, output))`: insert the zipped pairs in order. -/
def dictOfZip (names : List String) (vals : List PyVal) : Row :=
  (names.zip vals).foldl (fun d p => dictInsert d p.1 p.2) []

/-- `_apply_pipeline(row, pipeline, values_column, sampling_frequency)`
(`process_signals.py` lines 82-113).  The external `pipeline.predict`
execution entrypoint is the black-box parameter `predict`. -/
def _apply_pipeline (predict : BuiltPipeline → PyVal → PyVal → Except Err PyOut)
    (row : Row) (pipeline : BuiltPipeline) (values_column : String)
    (sampling_frequency : PyVal) : Except Err Row := do
  let sampling_frequency ←
    match sampling_frequency with
    | .str col => rowGet row col
    | v => pure v
  let amplitude_values ← rowGet row values_column
  let output ← predict pipeline amplitude_values sampling_frequency
  let output_names := get_output_names pipeline
  let output :=
    match output with
    | .tuple vs => vs
    | .single v => [v]
  return dictOfZip output_names output

/-- `del output[values_column]`: drop the column with that label from a row.
(pandas removes the label from the frame; the builderless frame-level
`KeyError` on a column absent from every row is outside this row-wise
model.) -/
def delColumn (row : Row) (col : String) : Row :=
  row.filter (fun p => p.1 != col)

/-- `process_signals(data, transformations, aggregations, sampling_frequency,
values_column, keep_values)` (`process_signals.py` lines 116-168): build the
pipeline once, apply it to every row, concatenate the original columns with
the feature columns, and drop the values column unless `keep_values`. -/
def process_signals (load_primitive : String → Except Err (List String))
    (predict : BuiltPipeline → PyVal → PyVal → Except Err PyOut)
    (data : List Row) (transformations aggregations : List Step)
    (sampling_frequency : PyVal) (values_column : String) (keep_values : Bool) :
    Except Err (List Row) := do
  let pipeline ← _build_pipeline load_primitive transformations aggregations
  let features ← data.mapM
    (fun row => _apply_pipeline predict row pipeline values_column sampling_frequency)
  let output := (data.zip features).map (fun rf => rf.1 ++ rf.2)
  if keep_values then
    return output
  else
    return output.map (fun row => delColumn row values_column)

/-- `np.fft.fftfreq(n, d)`: the discrete Fourier transform sample
frequencies: `[0, 1, ..., (n-1)/2, -(n/2), ..., -1] / (d*n)` (the code wraps
this in `np.real`, an identity on an already-real vector). -/
def fftfreq (n : ℕ) (d : ℚ) : List ℚ :=
  (List.range n).map (fun k =>
    (if k < (n + 1) / 2 then (k : ℚ) else (k : ℚ) - (n : ℚ)) / ((n : ℚ) * d))

/-- `np.real(np.fft.fft(x))`: the real component of the discrete Fourier
transform, `Re Σⱼ xⱼ e^(-2πi jk/n) = Σⱼ xⱼ cos(2π jk/n)` for real input. -/
noncomputable def dftRe (x : List ℝ) : List ℝ :=
  (List.range x.length).map (fun k =>
    ∑ j ∈ Finset.range x.length,
      x.getD j 0 * Real.cos (2 * Real.pi * (j * k : ℕ) / (x.length : ℕ)))

/-- `fft_real(amplitude_values, sampling_frequency)` (`fft.py` lines 27-30):
the real component of the DFT of the amplitudes, and the frequency bins of
`np.fft.fftfreq` called with the (reassigned) amplitude vector's length and
the sampling frequency as second argument. -/
noncomputable def fft_real (amplitude_values : List ℝ) (sampling_frequency : ℚ) :
    List ℝ × List ℚ :=
  let amplitude_values := dftRe amplitude_values
  let frequency_values := fftfreq amplitude_values.length sampling_frequency
  (amplitude_values, frequency_values)

/-- The disambiguated key of one more occurrence of primitive `p` after the
occurrences recorded in `seen`: `{p}#{occurrence}` with a 1-based occurrence
counter per distinct primitive identifier. -/
def occKey (seen : List String) (p : String) : String :=
  p ++ "#" ++ Nat.repr (seen.count p + 1)

/-- The disambiguated occurrence keys assigned, in order, to a sequence of
primitive identifiers, the occurrence counter continuing from `seen`. -/
def assignedKeys : List String → List String → List String
  | [], _ => []
  | p :: ps, seen => occKey seen p :: assignedKeys ps (seen ++ [p])

/-- The init_params mapping described by the spec: each step with a truthy
`init_params` contributes an entry under that step's own disambiguated key,
in step order. -/
def paramsSpec : List Step → List String → List (String × Params)
  | [], _ => []
  | s :: rest, seen =>
    (if truthy s.init_params then [(occKey seen s.primitive, s.init_params.getD [])] else [])
      ++ paramsSpec rest (seen ++ [s.primitive])

/-- The declared outputs described by the spec: for every aggregation and
every one of its primitive's declared output fields, in
aggregation-then-field order, the output named
`{prefix}.{aggregation.name}.{field}` sourced from the variable
`{primitive}#{occurrence}.{field}` of the aggregation's disambiguated
primitive instance. -/
def specAggOutputs (fields : String → List String) (pfx : String) :
    List Step → List String → List OutputSpec
  | [], _ => []
  | a :: rest, seen =>
    (fields a.primitive).map (fun f =>
      { name := pfx ++ "." ++ a.name ++ "." ++ f,
        var := occKey seen a.primitive ++ "." ++ f : OutputSpec })
      ++ specAggOutputs fields pfx rest (seen ++ [a.primitive])

/-- The declared output fields of a primitive, read off the lookup
collaborator (arbitrary on identifiers whose lookup fails). -/
def fieldsOf (load_primitive : String → Except Err (List String)) (p : String) :
    List String :=
  match load_primitive p with
  | .ok fs => fs
  | .error _ => []

/-- Invariant carried through the builder's loops: every key already stored
in `init_params` is a disambiguation key whose count is positive and does not
exceed the occurrences seen so far. -/
def KeysBelow (d : List (String × Params)) (seen : List String) : Prop :=
  ∀ k ∈ d.map Prod.fst, ∃ q m, k = q ++ "#" ++ Nat.repr m ∧ 0 < m ∧ m ≤ seen.count q

deriving instance DecidableEq for Except

def L1wit : String → Except Err (List String) := fun _ => .ok ["value"]

def ts1wit : List Step := [⟨"t1", "prT", some [("a", "1")]⟩, ⟨"t2", "prT", none⟩]

def as1wit : List Step := [⟨"agg", "prT", none⟩]

def pl1wit : BuiltPipeline :=
  { primitives := ["prT", "prT", "prT"],
    init_params := [("prT#1", [("a", "1")])],
    outputs := [⟨"t1.t2.agg.value", "prT#3.value"⟩] }

def L2wit : String → Except Err (List String) := fun _ => .ok ["o"]

def ts2wit : List Step := [⟨"t1", "p", some [("x", "1")]⟩]

def as2wit : List Step := [⟨"a1", "p", some [("y", "2")]⟩, ⟨"a2", "q", none⟩]

def pl2wit : BuiltPipeline :=
  { primitives := ["p", "p", "q"],
    init_params := [("p#1", [("x", "1")]), ("p#2", [("y", "2")])],
    outputs := [⟨"t1.a1.o", "p#2.o"⟩, ⟨"t1.a2.o", "q#1.o"⟩] }

def L7wit : String → Except Err (List String) := fun _ => .ok ["o"]

def as7wit : List Step := [⟨"a", "p", none⟩]

def pl7wit : BuiltPipeline :=
  { primitives := ["p"], init_params := [], outputs := [⟨".a.o", "p#1.o"⟩] }

def L9wit : String → Except Err (List String) := fun _ => .ok ["f"]

def ts9wit : List Step := [⟨"t", "p", some []⟩]

def as9wit : List Step := [⟨"a", "p", some [("k", "v")]⟩]

def pl9wit : BuiltPipeline :=
  { primitives := ["p", "p"],
    init_params := [("p#2", [("k", "v")])],
    outputs := [⟨"t.a.f", "p#2.f"⟩] }

def plRowWit : BuiltPipeline :=
  { primitives := ["p"], init_params := [], outputs := [⟨"n", "p#1.v"⟩] }

def pl6wit : BuiltPipeline :=
  { primitives := ["p"], init_params := [],
    outputs := [⟨"t.x.f", "p#1.f"⟩, ⟨"t.y.g", "p#1.g"⟩] }

/-- The normalization `output if isinstance(output, tuple) else (output,)`
of `_apply_pipeline`: a tuple result as-is, a single non-tuple result
wrapped into a one-element sequence. -/
def normalizeOut : PyOut → List PyVal
  | .tuple vs => vs
  | .single v => [v]

def L4wit : String → Except Err (List String) := fun _ => .ok ["f"]

def ts4wit : List Step := [⟨"t", "p", none⟩]

def as4wit : List Step := [⟨"a", "q", none⟩]

def pl4wit : BuiltPipeline :=
  { primitives := ["p", "q"], init_params := [], outputs := [⟨"t.a.f", "q#1.f"⟩] }

def data4wit : List Row :=
  [[("id", PyVal.num 1), ("values", PyVal.numList [2]), ("sf", PyVal.num 3)]]

def out4wit : List Row :=
  [[("id", PyVal.num 1), ("sf", PyVal.num 3), ("t.a.f", PyVal.num 7)]]

/-- The spec's "cycles-per-sample-interval" frequency of bin `k` out of `n`
samples: `k/n` on the nonnegative half of the spectrum, `(k-n)/n` on the
negative half. -/
def cyclesPerSampleInterval (n k : ℕ) : ℚ :=
  (if k < (n + 1) / 2 then (k : ℚ) else (k : ℚ) - (n : ℚ)) / (n : ℚ)

/-- Modelled from the spec: the "take first frequency bin" aggregation
primitive used by the spec's concrete Row Applier scenario (no such
primitive is among the two source files): it returns the first element of
the frequency values produced by the FFT transformation. -/
def first_frequency_bin (_amplitude_values : List ℝ) (frequency_values : List ℚ) : ℚ :=
  frequency_values.headD 0

/-- Modelled from the spec: the external engine's execution of the pipeline
consisting of the `fft_real` transformation followed by the
take-first-frequency-bin aggregation (pipeline execution semantics are the
black-box collaborator): the row's amplitude values and sampling frequency
are threaded through `fft_real` and reduced by the aggregation. -/
noncomputable def predictFFTFirstBin (_pl : BuiltPipeline) (amps sf : PyVal) :
    Except Err PyOut :=
  match amps, sf with
  | .numList qs, .num q =>
      .ok (.single (.num (first_frequency_bin
        (fft_real (qs.map (fun a => (a : ℝ))) q).1
        (fft_real (qs.map (fun a => (a : ℝ))) q).2)))
  | _, _ => .error (.primitiveError "fft_real")

def L8wit : String → Except Err (List String) := fun _ => .ok ["value"]

def ts8wit : List Step :=
  [⟨"fft", "sigpro.transformations.frequency.fft.fft_real", none⟩]

def as8wit : List Step :=
  [⟨"first", "sigpro.aggregations.frequency.first_frequency_bin", none⟩]

def pl8wit : BuiltPipeline :=
  { primitives := ["sigpro.transformations.frequency.fft.fft_real",
      "sigpro.aggregations.frequency.first_frequency_bin"],
    init_params := [],
    outputs := [⟨"fft.first.value",
      "sigpro.aggregations.frequency.first_frequency_bin#1.value"⟩] }

/-! ## Theorems -/

theorem mem_toDigitsCore (b : ℕ) (hb : 0 < b) :
    ∀ (fuel n : ℕ) (ds : List Char) (c : Char),
      c ∈ Nat.toDigitsCore b fuel n ds → c ∈ ds ∨ ∃ m, m < b ∧ c = Nat.digitChar m := by
  intro fuel
  induction fuel with
  | zero => intro n ds c hc; exact Or.inl hc
  | succ fuel ih =>
    intro n ds c hc
    simp only [Nat.toDigitsCore] at hc
    by_cases h : n / b = 0
    · simp only [h, if_pos rfl] at hc
      rcases List.mem_cons.mp hc with h1 | h1
      · exact Or.inr ⟨n % b, Nat.mod_lt _ hb, h1⟩
      · exact Or.inl h1
    · simp only [if_neg h] at hc
      rcases ih (n / b) (Nat.digitChar (n % b) :: ds) c hc with h1 | h1
      · rcases List.mem_cons.mp h1 with h2 | h2
        · exact Or.inr ⟨n % b, Nat.mod_lt _ hb, h2⟩
        · exact Or.inl h2
      · exact Or.inr h1

theorem digitChar_ne_hash {m : ℕ} (hm : m < 10) : Nat.digitChar m ≠ '#' := by
  interval_cases m <;> decide

theorem hash_not_mem_repr (n : ℕ) : '#' ∉ (Nat.repr n).data := by
  intro hmem
  have : '#' ∈ Nat.toDigitsCore 10 (n + 1) n [] := hmem
  rcases mem_toDigitsCore 10 (by norm_num) (n + 1) n [] '#' this with h | ⟨m, hm, hc⟩
  · simp at h
  · exact digitChar_ne_hash hm hc.symm

theorem toDigitsCore_eq_append (b : ℕ) :
    ∀ (fuel n : ℕ) (ds : List Char),
      Nat.toDigitsCore b fuel n ds = Nat.toDigitsCore b fuel n [] ++ ds := by
  intro fuel
  induction fuel with
  | zero => intro n ds; simp [Nat.toDigitsCore]
  | succ fuel ih =>
    intro n ds
    simp only [Nat.toDigitsCore]
    by_cases h : n / b = 0
    · simp [h]
    · simp only [if_neg h]
      rw [ih (n / b) (Nat.digitChar (n % b) :: ds), ih (n / b) [Nat.digitChar (n % b)]]
      simp

theorem toDigitsCore_fuel_irrel (b : ℕ) (hb : 2 ≤ b) :
    ∀ (n fuel₁ fuel₂ : ℕ), n < fuel₁ → n < fuel₂ → ∀ ds,
      Nat.toDigitsCore b fuel₁ n ds = Nat.toDigitsCore b fuel₂ n ds := by
  intro n
  induction n using Nat.strong_induction_on with
  | _ n ih =>
    intro fuel₁ fuel₂ h₁ h₂ ds
    obtain ⟨f₁, rfl⟩ : ∃ f, fuel₁ = f + 1 := ⟨fuel₁ - 1, by omega⟩
    obtain ⟨f₂, rfl⟩ : ∃ f, fuel₂ = f + 1 := ⟨fuel₂ - 1, by omega⟩
    simp only [Nat.toDigitsCore]
    by_cases h : n / b = 0
    · simp [h]
    · simp only [if_neg h]
      have hn : 0 < n := by
        rcases Nat.eq_zero_or_pos n with h0 | h0
        · exact absurd (by simp [h0]) h
        · exact h0
      have hdiv : n / b < n := Nat.div_lt_self hn (by omega)
      exact ih (n / b) hdiv f₁ f₂ (by omega) (by omega) _

theorem repr_data (n : ℕ) :
    (Nat.repr n).data =
      (if n < 10 then [] else (Nat.repr (n / 10)).data) ++ [Nat.digitChar (n % 10)] := by
  show Nat.toDigitsCore 10 (n + 1) n [] = _
  simp only [Nat.toDigitsCore]
  by_cases h : n / 10 = 0
  · have hn : n < 10 := by omega
    simp [h, hn]
  · have hn : ¬ n < 10 := fun hlt => h (Nat.div_eq_of_lt hlt)
    simp only [if_neg h, if_neg hn]
    rw [toDigitsCore_eq_append 10 n (n / 10) [Nat.digitChar (n % 10)]]
    congr 1
    have hpos : 0 < n := by omega
    have hdiv : n / 10 < n := Nat.div_lt_self hpos (by norm_num)
    exact toDigitsCore_fuel_irrel 10 (by norm_num) (n / 10) n (n / 10 + 1) hdiv (Nat.lt_succ_self _) []

theorem digitVal_digitChar {m : ℕ} (hm : m < 10) : digitVal (Nat.digitChar m) = m := by
  interval_cases m <;> decide

theorem digitsVal_append_singleton (xs : List Char) (c : Char) :
    digitsVal (xs ++ [c]) = 10 * digitsVal xs + digitVal c := by
  simp [digitsVal, List.foldl_append]

theorem digitsVal_repr (n : ℕ) : digitsVal (Nat.repr n).data = n := by
  induction n using Nat.strong_induction_on with
  | _ n ih =>
    rw [repr_data]
    by_cases h : n < 10
    · have h10 : n % 10 = n := Nat.mod_eq_of_lt h
      simp only [if_pos h, List.nil_append]
      rw [h10]
      simp [digitsVal, digitVal_digitChar h]
    · simp only [if_neg h]
      rw [digitsVal_append_singleton]
      have hdiv : n / 10 < n := Nat.div_lt_self (by omega) (by norm_num)
      rw [ih (n / 10) hdiv, digitVal_digitChar (Nat.mod_lt n (by norm_num))]
      omega

theorem repr_injective {m n : ℕ} (h : Nat.repr m = Nat.repr n) : m = n := by
  have : digitsVal (Nat.repr m).data = digitsVal (Nat.repr n).data := by rw [h]
  rwa [digitsVal_repr, digitsVal_repr] at this

/-- If a separator element is absent from both left parts, splitting at the
first separator is unambiguous. -/
theorem append_cons_sep_inj {α : Type _} (s : α) :
    ∀ (xs ys u v : List α), s ∉ xs → s ∉ ys →
      xs ++ s :: u = ys ++ s :: v → xs = ys ∧ u = v := by
  intro xs
  induction xs with
  | nil =>
    intro ys u v _ hy h
    cases ys with
    | nil => simpa using h
    | cons y ys =>
      simp only [List.nil_append, List.cons_append, List.cons.injEq] at h
      exact absurd (h.1 ▸ List.mem_cons_self y ys) (h.1 ▸ hy)
  | cons x xs ih =>
    intro ys u v hx hy h
    cases ys with
    | nil =>
      simp only [List.cons_append, List.nil_append, List.cons.injEq] at h
      exact absurd (h.1 ▸ List.mem_cons_self x xs) (h.1 ▸ hx)
    | cons y ys =>
      simp only [List.cons_append, List.cons.injEq] at h
      obtain ⟨rfl, h2⟩ := h
      have := ih ys u v (fun hm => hx (List.mem_cons_of_mem _ hm))
        (fun hm => hy (List.mem_cons_of_mem _ hm)) h2
      exact ⟨by rw [this.1], this.2⟩

/-- Injectivity of the disambiguation key format `{primitive}#{count}` used by
`_build_pipeline`: equal keys come from equal primitive names and counts. -/
theorem key_inj {p₁ p₂ : String} {n₁ n₂ : ℕ}
    (h : p₁ ++ "#" ++ Nat.repr n₁ = p₂ ++ "#" ++ Nat.repr n₂) : p₁ = p₂ ∧ n₁ = n₂ := by
  have hdata : p₁.data ++ '#' :: (Nat.repr n₁).data = p₂.data ++ '#' :: (Nat.repr n₂).data := by
    have := congrArg String.data h
    simpa [String.data_append] using this
  have hrev : (Nat.repr n₁).data.reverse ++ '#' :: p₁.data.reverse
      = (Nat.repr n₂).data.reverse ++ '#' :: p₂.data.reverse := by
    have := congrArg List.reverse hdata
    simpa [List.reverse_append] using this
  have h1 : '#' ∉ (Nat.repr n₁).data.reverse := by
    simpa using hash_not_mem_repr n₁
  have h2 : '#' ∉ (Nat.repr n₂).data.reverse := by
    simpa using hash_not_mem_repr n₂
  obtain ⟨ha, hb⟩ := append_cons_sep_inj '#' _ _ _ _ h1 h2 hrev
  constructor
  · exact String.ext (by simpa using congrArg List.reverse hb)
  · exact repr_injective (String.ext (by simpa using congrArg List.reverse ha))

theorem keysBelow_nil (seen : List String) : KeysBelow [] seen := by
  intro k hk; simp at hk

theorem occKey_not_mem {d : List (String × Params)} {seen : List String}
    (hd : KeysBelow d seen) (p : String) : occKey seen p ∉ d.map Prod.fst := by
  intro hmem
  obtain ⟨q, m, hk, hpos, hle⟩ := hd _ hmem
  obtain ⟨rfl, hm⟩ := key_inj hk.symm
  omega

theorem dictInsert_of_not_mem {α : Type _} {d : List (String × α)} {k : String}
    (h : k ∉ d.map Prod.fst) (v : α) : dictInsert d k v = d ++ [(k, v)] := by
  have : d.any (fun p => p.1 == k) = false := by
    rw [List.any_eq_false]
    intro p hp
    simp only [beq_iff_eq]
    intro hpk
    exact h (hpk ▸ List.mem_map_of_mem Prod.fst hp)
  simp [dictInsert, this]

theorem count_append_singleton (seen : List String) (p q : String) :
    (seen ++ [p]).count q = seen.count q + if p = q then 1 else 0 := by
  simp [List.count_append, List.count_singleton]

theorem keysBelow_append_singleton {d : List (String × Params)} {seen : List String}
    (hd : KeysBelow d seen) (p : String) : KeysBelow d (seen ++ [p]) := by
  intro k hk
  obtain ⟨q, m, hk, hpos, hle⟩ := hd _ hk
  refine ⟨q, m, hk, hpos, ?_⟩
  rw [count_append_singleton]
  omega

theorem keysBelow_store {d : List (String × Params)} {seen : List String}
    (hd : KeysBelow d seen) (p : String) (v : Params) :
    KeysBelow (d ++ [(occKey seen p, v)]) (seen ++ [p]) := by
  intro k hk
  simp only [List.map_append, List.mem_append, List.map_cons, List.map_nil,
    List.mem_singleton] at hk
  rcases hk with hk | hk
  · exact keysBelow_append_singleton hd p _ hk
  · refine ⟨p, seen.count p + 1, hk, by omega, ?_⟩
    rw [count_append_singleton]
    simp

/-- Unfolding of one transformation-loop iteration under the counter/keys
invariant. -/
theorem transStep_eq {st : BState} {seen : List String}
    (hc : st.counter = fun p => seen.count p)
    (hk : KeysBelow st.init_params seen) (t : Step) :
    transStep st t =
      { primitives := st.primitives ++ [t.primitive],
        init_params := st.init_params ++
          (if truthy t.init_params then [(occKey seen t.primitive, t.init_params.getD [])] else []),
        pfxNames := st.pfxNames ++ [t.name],
        counter := fun p => (seen ++ [t.primitive]).count p,
        outputs := st.outputs } := by
  have hfun : incr st.counter t.primitive = fun p => (seen ++ [t.primitive]).count p := by
    funext p
    rw [count_append_singleton]
    rcases eq_or_ne p t.primitive with hp | hp
    · subst hp; simp [incr, hc]
    · simp [incr, hc, hp, hp.symm]
  have hkey : t.primitive ++ "#" ++ Nat.repr ((seen ++ [t.primitive]).count t.primitive)
      = occKey seen t.primitive := by
    rw [count_append_singleton, if_pos rfl]; rfl
  simp only [transStep, hfun, hkey]
  by_cases ht : truthy t.init_params
  · rw [if_pos ht, if_pos ht, dictInsert_of_not_mem (occKey_not_mem hk t.primitive)]
  · rw [if_neg ht, if_neg ht, List.append_nil]

/-- The transformation loop of `_build_pipeline`, related to the spec-side
formulas: it appends the primitives in order, records the names as the
prefix list, threads the occurrence counter, and stores exactly the truthy
init_params under their disambiguated keys. -/
theorem foldl_transStep (ts : List Step) :
    ∀ (st : BState) (seen : List String),
      st.counter = (fun p => seen.count p) →
      KeysBelow st.init_params seen →
      (ts.foldl transStep st).primitives = st.primitives ++ ts.map (fun t => t.primitive) ∧
      (ts.foldl transStep st).pfxNames = st.pfxNames ++ ts.map (fun t => t.name) ∧
      (ts.foldl transStep st).counter
        = (fun p => (seen ++ ts.map (fun t => t.primitive)).count p) ∧
      (ts.foldl transStep st).init_params = st.init_params ++ paramsSpec ts seen ∧
      (ts.foldl transStep st).outputs = st.outputs := by
  induction ts with
  | nil =>
    intro st seen hc hk
    simp [List.foldl_nil, hc, paramsSpec]
  | cons t ts ih =>
    intro st seen hc hk
    rw [List.foldl_cons, transStep_eq hc hk t]
    have hk' : KeysBelow (st.init_params ++
        (if truthy t.init_params then [(occKey seen t.primitive, t.init_params.getD [])] else []))
        (seen ++ [t.primitive]) := by
      by_cases ht : truthy t.init_params
      · rw [if_pos ht]; exact keysBelow_store hk t.primitive _
      · rw [if_neg ht]; simp only [List.append_nil]
        exact keysBelow_append_singleton hk t.primitive
    obtain ⟨h1, h2, h3, h4, h5⟩ :=
      ih { primitives := st.primitives ++ [t.primitive],
           init_params := st.init_params ++
             (if truthy t.init_params then [(occKey seen t.primitive, t.init_params.getD [])] else []),
           pfxNames := st.pfxNames ++ [t.name],
           counter := fun p => (seen ++ [t.primitive]).count p,
           outputs := st.outputs } (seen ++ [t.primitive]) rfl hk'
    refine ⟨?_, ?_, ?_, ?_, ?_⟩
    · rw [h1]; simp
    · rw [h2]; simp
    · rw [h3]
      have hl : (seen ++ [t.primitive]) ++ ts.map (fun t => t.primitive)
          = seen ++ (t :: ts).map (fun t => t.primitive) := by simp
      rw [hl]
    · rw [h4]
      simp only [paramsSpec, List.append_assoc]
    · exact h5

theorem except_bind_ok {ε α β : Type _} (a : α) (f : α → Except ε β) :
    (Except.ok a >>= f) = f a := rfl

theorem except_bind_error {ε α β : Type _} (e : ε) (f : α → Except ε β) :
    ((Except.error e : Except ε α) >>= f) = Except.error e := rfl

/-- Unfolding of one aggregation-loop iteration under the counter/keys
invariant, when the primitive lookup succeeds. -/
theorem aggStep_eq {L : String → Except Err (List String)} {pfx : String}
    {st : BState} {seen : List String}
    (hc : st.counter = fun p => seen.count p)
    (hk : KeysBelow st.init_params seen) (a : Step) {flds : List String}
    (hL : L a.primitive = .ok flds) :
    aggStep L pfx st a = .ok
      { primitives := st.primitives ++ [a.primitive],
        init_params := st.init_params ++
          (if truthy a.init_params then [(occKey seen a.primitive, a.init_params.getD [])] else []),
        pfxNames := st.pfxNames,
        counter := fun p => (seen ++ [a.primitive]).count p,
        outputs := st.outputs ++ flds.map (fun f =>
          { name := pfx ++ "." ++ a.name ++ "." ++ f,
            var := occKey seen a.primitive ++ "." ++ f : OutputSpec }) } := by
  have hfun : incr st.counter a.primitive = fun p => (seen ++ [a.primitive]).count p := by
    funext p
    rw [count_append_singleton]
    rcases eq_or_ne p a.primitive with hp | hp
    · subst hp; simp [incr, hc]
    · simp [incr, hc, hp, hp.symm]
  have hkey : a.primitive ++ "#" ++ Nat.repr ((seen ++ [a.primitive]).count a.primitive)
      = occKey seen a.primitive := by
    rw [count_append_singleton, if_pos rfl]; rfl
  simp only [aggStep, hfun, hkey, hL, except_bind_ok]
  by_cases ht : truthy a.init_params
  · rw [if_pos ht, if_pos ht, dictInsert_of_not_mem (occKey_not_mem hk a.primitive)]
    rfl
  · rw [if_neg ht, if_neg ht, List.append_nil]
    rfl

/-- The error case of one aggregation-loop iteration: a failing primitive
lookup propagates its error unchanged. -/
theorem aggStep_error {L : String → Except Err (List String)} {pfx : String}
    (st : BState) (a : Step) {e : Err}
    (hL : L a.primitive = .error e) :
    aggStep L pfx st a = .error e := by
  simp only [aggStep, hL, except_bind_error]

/-- The aggregation loop of `_build_pipeline`, related to the spec-side
formulas: it appends the aggregation primitives, threads the shared
occurrence counter, registers exactly the spec-described outputs in
aggregation-then-field order, and stores exactly the truthy init_params
under their disambiguated keys. -/
theorem foldlM_aggStep (L : String → Except Err (List String)) (pfx : String)
    (as : List Step) :
    ∀ (st : BState) (seen : List String) (res : BState),
      st.counter = (fun p => seen.count p) →
      KeysBelow st.init_params seen →
      as.foldlM (aggStep L pfx) st = .ok res →
      res.primitives = st.primitives ++ as.map (fun a => a.primitive) ∧
      res.counter = (fun p => (seen ++ as.map (fun a => a.primitive)).count p) ∧
      res.init_params = st.init_params ++ paramsSpec as seen ∧
      res.outputs = st.outputs ++ specAggOutputs (fieldsOf L) pfx as seen := by
  induction as with
  | nil =>
    intro st seen res hc hk hfold
    have hres : st = res := by
      have : (pure st : Except Err BState) = Except.ok st := rfl
      rw [List.foldlM_nil, this] at hfold
      exact Except.ok.inj hfold
    subst hres
    simp [hc, paramsSpec, specAggOutputs]
  | cons a as ih =>
    intro st seen res hc hk hfold
    rw [List.foldlM_cons] at hfold
    cases hL : L a.primitive with
    | error e =>
      rw [aggStep_error st a hL, except_bind_error] at hfold
      exact absurd hfold (by simp)
    | ok flds =>
      rw [aggStep_eq hc hk a hL, except_bind_ok] at hfold
      have hk' : KeysBelow (st.init_params ++
          (if truthy a.init_params then [(occKey seen a.primitive, a.init_params.getD [])] else []))
          (seen ++ [a.primitive]) := by
        by_cases ht : truthy a.init_params
        · rw [if_pos ht]; exact keysBelow_store hk a.primitive _
        · rw [if_neg ht]; simp only [List.append_nil]
          exact keysBelow_append_singleton hk a.primitive
      obtain ⟨h1, h2, h3, h4⟩ := ih _ (seen ++ [a.primitive]) res rfl hk' hfold
      have hflds : fieldsOf L a.primitive = flds := by
        simp [fieldsOf, hL]
      refine ⟨?_, ?_, ?_, ?_⟩
      · rw [h1]; simp
      · rw [h2]
        have hl : (seen ++ [a.primitive]) ++ as.map (fun a => a.primitive)
            = seen ++ (a :: as).map (fun a => a.primitive) := by simp
        rw [hl]
      · rw [h3]
        simp only [paramsSpec, List.append_assoc]
      · rw [h4]
        simp only [specAggOutputs, hflds, List.append_assoc]

theorem keysBelow_congr {d : List (String × Params)} {s₁ s₂ : List String}
    (h : s₁ = s₂) (hk : KeysBelow d s₁) : KeysBelow d s₂ := h ▸ hk

theorem keysBelow_paramsSpec :
    ∀ (steps : List Step) (seen : List String) (d : List (String × Params)),
      KeysBelow d seen →
      KeysBelow (d ++ paramsSpec steps seen) (seen ++ steps.map (fun s => s.primitive)) := by
  intro steps
  induction steps with
  | nil =>
    intro seen d hd
    simpa [paramsSpec] using hd
  | cons s rest ih =>
    intro seen d hd
    have hd' : KeysBelow (d ++
        (if truthy s.init_params then [(occKey seen s.primitive, s.init_params.getD [])] else []))
        (seen ++ [s.primitive]) := by
      by_cases ht : truthy s.init_params
      · rw [if_pos ht]; exact keysBelow_store hd s.primitive _
      · rw [if_neg ht]; simp only [List.append_nil]
        exact keysBelow_append_singleton hd s.primitive
    have := ih (seen ++ [s.primitive]) _ hd'
    have hl : (seen ++ [s.primitive]) ++ rest.map (fun s => s.primitive)
        = seen ++ (s :: rest).map (fun s => s.primitive) := by simp
    have := keysBelow_congr hl this
    simpa [paramsSpec, List.append_assoc] using this

theorem paramsSpec_append (xs ys : List Step) :
    ∀ seen, paramsSpec (xs ++ ys) seen
      = paramsSpec xs seen ++ paramsSpec ys (seen ++ xs.map (fun s => s.primitive)) := by
  induction xs with
  | nil => intro seen; simp [paramsSpec]
  | cons x xs ih =>
    intro seen
    have h1 : paramsSpec ((x :: xs) ++ ys) seen
        = (if truthy x.init_params then [(occKey seen x.primitive, x.init_params.getD [])] else [])
          ++ paramsSpec (xs ++ ys) (seen ++ [x.primitive]) := rfl
    have h2 : paramsSpec (x :: xs) seen
        = (if truthy x.init_params then [(occKey seen x.primitive, x.init_params.getD [])] else [])
          ++ paramsSpec xs (seen ++ [x.primitive]) := rfl
    rw [h1, h2, ih (seen ++ [x.primitive])]
    have hl : (seen ++ [x.primitive]) ++ xs.map (fun s => s.primitive)
        = seen ++ (x :: xs).map (fun s => s.primitive) := by simp
    rw [hl, List.append_assoc]

/-- What `_build_pipeline` returns on success, expressed by the spec-side
formulas: the primitive identifiers of the combined sequence in order, the
init_params of the truthy steps under their disambiguated keys, and the
declared outputs of the aggregations under the dotted transformation-name
prefix. -/
theorem build_pipeline_ok {L : String → Except Err (List String)}
    {ts as : List Step} {pl : BuiltPipeline}
    (h : _build_pipeline L ts as = .ok pl) :
    pl.primitives = (ts ++ as).map (fun s => s.primitive) ∧
    pl.init_params = paramsSpec (ts ++ as) [] ∧
    pl.outputs = specAggOutputs (fieldsOf L)
      (String.intercalate "." (ts.map (fun t => t.name))) as
      (ts.map (fun t => t.primitive)) := by
  have h0c : (⟨[], [], [], fun _ => 0, []⟩ : BState).counter
      = fun p => ([] : List String).count p := by
    funext p; simp
  obtain ⟨t1, t2, t3, t4, t5⟩ :=
    foldl_transStep ts ⟨[], [], [], fun _ => 0, []⟩ [] h0c (keysBelow_nil [])
  set st0 := ts.foldl transStep (⟨[], [], [], fun _ => 0, []⟩ : BState) with hst0
  simp only [List.nil_append] at t1 t2 t3 t4 t5
  have hc0 : st0.counter = fun p => (ts.map (fun t => t.primitive)).count p := t3
  have hk0 : KeysBelow st0.init_params (ts.map (fun t => t.primitive)) := by
    rw [t4]
    have := keysBelow_paramsSpec ts [] [] (keysBelow_nil [])
    simpa using this
  simp only [_build_pipeline, ← hst0] at h
  cases hagg : as.foldlM (aggStep L (String.intercalate "." st0.pfxNames)) st0 with
  | error e =>
    rw [hagg, except_bind_error] at h
    exact absurd h (by simp)
  | ok stres =>
    rw [hagg, except_bind_ok] at h
    have hpl : pl = ⟨stres.primitives, stres.init_params, stres.outputs⟩ :=
      (Except.ok.inj h).symm
    obtain ⟨a1, a2, a3, a4⟩ :=
      foldlM_aggStep L (String.intercalate "." st0.pfxNames) as st0
        (ts.map (fun t => t.primitive)) stres hc0 hk0 hagg
    rw [t2] at a4
    refine ⟨?_, ?_, ?_⟩
    · rw [hpl]
      show stres.primitives = _
      rw [a1, t1]
      simp
    · rw [hpl]
      show stres.init_params = _
      rw [a3, t4, paramsSpec_append]
      simp
    · rw [hpl]
      show stres.outputs = _
      rw [a4, t5]
      simp

theorem mem_assignedKeys :
    ∀ (ps seen : List String) (k : String),
      k ∈ assignedKeys ps seen →
      ∃ q m, k = q ++ "#" ++ Nat.repr m ∧ seen.count q < m := by
  intro ps
  induction ps with
  | nil => intro seen k hk; simp [assignedKeys] at hk
  | cons p ps ih =>
    intro seen k hk
    rcases List.mem_cons.mp hk with hk | hk
    · exact ⟨p, seen.count p + 1, hk, Nat.lt_succ_self _⟩
    · obtain ⟨q, m, hkey, hlt⟩ := ih (seen ++ [p]) k hk
      refine ⟨q, m, hkey, ?_⟩
      rcases eq_or_ne p q with hpq | hpq
      · rw [count_append_singleton, if_pos hpq] at hlt; omega
      · rw [count_append_singleton, if_neg hpq] at hlt; omega

/-- The disambiguated occurrence keys of a primitive sequence are pairwise
distinct, whatever occurrences were already seen. -/
theorem assignedKeys_nodup : ∀ (ps seen : List String), (assignedKeys ps seen).Nodup := by
  intro ps
  induction ps with
  | nil => intro seen; simp [assignedKeys]
  | cons p ps ih =>
    intro seen
    refine List.nodup_cons.mpr ⟨?_, ih (seen ++ [p])⟩
    intro hmem
    obtain ⟨q, m, hkey, hlt⟩ := mem_assignedKeys ps (seen ++ [p]) _ hmem
    obtain ⟨rfl, hm⟩ := key_inj
      (show p ++ "#" ++ Nat.repr (seen.count p + 1) = q ++ "#" ++ Nat.repr m from hkey)
    rw [count_append_singleton, if_pos rfl] at hlt
    omega

/-- The i-th assigned key is the i-th primitive identifier suffixed with the
number of its occurrences among the first `i + 1` primitives (1-based since
one of them is the i-th itself). -/
theorem assignedKeys_getD :
    ∀ (ps seen : List String) (i : ℕ), i < ps.length →
      (assignedKeys ps seen).getD i ""
        = (ps.getD i "") ++ "#"
          ++ Nat.repr ((seen ++ ps.take (i + 1)).count (ps.getD i "")) := by
  intro ps
  induction ps with
  | nil => intro seen i hi; simp at hi
  | cons p ps ih =>
    intro seen i hi
    cases i with
    | zero =>
      show occKey seen p = p ++ "#" ++ Nat.repr ((seen ++ (p :: ps).take 1).count p)
      have h1 : (p :: ps).take 1 = [p] := by simp
      rw [h1, count_append_singleton, if_pos rfl]
      rfl
    | succ i =>
      have hi' : i < ps.length := by simpa using hi
      have h1 : (assignedKeys (p :: ps) seen).getD (i + 1) ""
          = (assignedKeys ps (seen ++ [p])).getD i "" := rfl
      have h2 : ((p :: ps) : List String).getD (i + 1) "" = ps.getD i "" := rfl
      rw [h1, h2, ih (seen ++ [p]) i hi']
      have h3 : (seen ++ [p]) ++ ps.take (i + 1) = seen ++ (p :: ps).take (i + 1 + 1) := by
        simp
      rw [h3]

/-- The stored init_params are exactly the zip of steps with their assigned
keys, filtered to the steps whose init_params are truthy. -/
theorem paramsSpec_eq_filterMap :
    ∀ (steps : List Step) (seen : List String),
      paramsSpec steps seen
        = (steps.zip (assignedKeys (steps.map (fun s => s.primitive)) seen)).filterMap
            (fun sk => if truthy sk.1.init_params then
                some (sk.2, sk.1.init_params.getD []) else none) := by
  intro steps
  induction steps with
  | nil => intro seen; simp [paramsSpec, assignedKeys]
  | cons s rest ih =>
    intro seen
    have hz : (s :: rest).zip (assignedKeys ((s :: rest).map (fun s => s.primitive)) seen)
        = (s, occKey seen s.primitive)
            :: rest.zip (assignedKeys (rest.map (fun s => s.primitive))
                (seen ++ [s.primitive])) := rfl
    have hps : paramsSpec (s :: rest) seen
        = (if truthy s.init_params then [(occKey seen s.primitive, s.init_params.getD [])] else [])
          ++ paramsSpec rest (seen ++ [s.primitive]) := rfl
    rw [hps, hz, List.filterMap_cons, ih (seen ++ [s.primitive])]
    cases ht : truthy s.init_params
    · simp [ht]
    · simp [ht]

theorem assignedKeys_length : ∀ (ps seen : List String),
    (assignedKeys ps seen).length = ps.length := by
  intro ps
  induction ps with
  | nil => intro seen; rfl
  | cons p ps ih => intro seen; simp [assignedKeys, ih]

theorem getD_eq_getElem' {α : Type _} (l : List α) (d : α) {i : ℕ} (h : i < l.length) :
    l.getD i d = l[i] := by
  rw [List.getD_eq_getElem?_getD, List.getElem?_eq_getElem h]
  rfl

theorem specAggOutputs_empty_pfx :
    ∀ (as : List Step) (seen : List String) (fields : String → List String),
      ∀ o ∈ specAggOutputs fields "" as seen, ∃ rest, o.name = "." ++ rest := by
  intro as
  induction as with
  | nil => intro seen fields o ho; simp [specAggOutputs] at ho
  | cons a rest ih =>
    intro seen fields o ho
    have ho' : o ∈ (fields a.primitive).map (fun f =>
        { name := "" ++ "." ++ a.name ++ "." ++ f,
          var := occKey seen a.primitive ++ "." ++ f : OutputSpec })
        ++ specAggOutputs fields "" rest (seen ++ [a.primitive]) := ho
    rcases List.mem_append.mp ho' with hm | hm
    · obtain ⟨f, _, rfl⟩ := List.mem_map.mp hm
      refine ⟨a.name ++ "." ++ f, ?_⟩
      show "" ++ "." ++ a.name ++ "." ++ f = "." ++ (a.name ++ "." ++ f)
      apply String.ext
      simp [String.data_append]
    · exact ih (seen ++ [a.primitive]) fields o hm

/-- C1: for non-empty transformation and aggregation lists, the built
pipeline's declared outputs are exactly, in aggregation-then-field order,
the outputs named `{prefix}.{aggregation.name}.{field}` (prefix the
transformation names joined by `.`) sourced from
`{primitive}#{occurrence}.{field}` of the aggregation's disambiguated
primitive instance, for every declared output field of each aggregation's
primitive. -/
theorem C1_declared_outputs {L : String → Except Err (List String)}
    {ts as : List Step} {pl : BuiltPipeline}
    (_hts : ts ≠ []) (_has : as ≠ [])
    (h : _build_pipeline L ts as = .ok pl) :
    pl.outputs = specAggOutputs (fieldsOf L)
      (String.intercalate "." (ts.map (fun t => t.name))) as
      (ts.map (fun t => t.primitive)) :=
  (build_pipeline_ok h).2.2

theorem C1_declared_outputs_witness :
    ts1wit ≠ [] ∧ as1wit ≠ [] ∧
    _build_pipeline L1wit ts1wit as1wit = .ok pl1wit ∧
    pl1wit.outputs = specAggOutputs (fieldsOf L1wit)
      (String.intercalate "." (ts1wit.map (fun t => t.name))) as1wit
      (ts1wit.map (fun t => t.primitive)) :=
  ⟨by decide, by decide, by decide,
    C1_declared_outputs (by decide) (by decide) (by decide)⟩

/-- C2: the disambiguated primitive occurrence identifiers of the combined
transformation-then-aggregation sequence are pairwise distinct; the i-th
identifier is the i-th primitive suffixed with `#` and the 1-based count of
its occurrences among the first `i+1` primitives of the combined sequence
(a single counter shared across the whole sequence); and the built
pipeline's init_params are exactly the truthy steps' params stored under
each step's own disambiguated key. -/
theorem C2_occurrence_keys_unique {L : String → Except Err (List String)}
    {ts as : List Step} {pl : BuiltPipeline}
    (h : _build_pipeline L ts as = .ok pl) :
    (assignedKeys ((ts ++ as).map (fun s => s.primitive)) []).Nodup ∧
    (∀ i, i < (ts ++ as).length →
      (assignedKeys ((ts ++ as).map (fun s => s.primitive)) []).getD i ""
        = ((ts ++ as).map (fun s => s.primitive)).getD i "" ++ "#"
          ++ Nat.repr ((((ts ++ as).map (fun s => s.primitive)).take (i + 1)).count
              (((ts ++ as).map (fun s => s.primitive)).getD i ""))) ∧
    pl.init_params
      = ((ts ++ as).zip (assignedKeys ((ts ++ as).map (fun s => s.primitive)) [])).filterMap
          (fun sk => if truthy sk.1.init_params then
              some (sk.2, sk.1.init_params.getD []) else none) := by
  refine ⟨assignedKeys_nodup _ [], ?_, ?_⟩
  · intro i hi
    have hi' : i < ((ts ++ as).map (fun s => s.primitive)).length := by simpa using hi
    have := assignedKeys_getD ((ts ++ as).map (fun s => s.primitive)) [] i hi'
    simpa using this
  · rw [(build_pipeline_ok h).2.1, paramsSpec_eq_filterMap]

theorem C2_occurrence_keys_unique_witness :
    _build_pipeline L2wit ts2wit as2wit = .ok pl2wit ∧
    ((assignedKeys ((ts2wit ++ as2wit).map (fun s => s.primitive)) []).Nodup ∧
      (∀ i, i < (ts2wit ++ as2wit).length →
        (assignedKeys ((ts2wit ++ as2wit).map (fun s => s.primitive)) []).getD i ""
          = ((ts2wit ++ as2wit).map (fun s => s.primitive)).getD i "" ++ "#"
            ++ Nat.repr ((((ts2wit ++ as2wit).map (fun s => s.primitive)).take (i + 1)).count
                (((ts2wit ++ as2wit).map (fun s => s.primitive)).getD i ""))) ∧
      pl2wit.init_params
        = ((ts2wit ++ as2wit).zip
              (assignedKeys ((ts2wit ++ as2wit).map (fun s => s.primitive)) [])).filterMap
            (fun sk => if truthy sk.1.init_params then
                some (sk.2, sk.1.init_params.getD []) else none)) :=
  ⟨by decide, @C2_occurrence_keys_unique L2wit ts2wit as2wit pl2wit (by decide)⟩

/-- C7: with an empty transformation list the prefix is the empty string and
every declared output name of the built pipeline is of the form
`.{aggregation.name}.{field}`, i.e. carries a leading `.` separator
(preserved, not corrected). -/
theorem C7_empty_transformations_leading_dot {L : String → Except Err (List String)}
    {as : List Step} {pl : BuiltPipeline}
    (h : _build_pipeline L [] as = .ok pl) :
    pl.outputs = specAggOutputs (fieldsOf L) "" as [] ∧
    ∀ o ∈ pl.outputs, ∃ rest, o.name = "." ++ rest := by
  have hb := (build_pipeline_ok h).2.2
  have hb' : pl.outputs = specAggOutputs (fieldsOf L) "" as [] := by
    simpa using hb
  refine ⟨hb', ?_⟩
  intro o ho
  rw [hb'] at ho
  exact specAggOutputs_empty_pfx as [] (fieldsOf L) o ho

theorem C7_empty_transformations_leading_dot_witness :
    _build_pipeline L7wit [] as7wit = .ok pl7wit ∧
    (pl7wit.outputs = specAggOutputs (fieldsOf L7wit) "" as7wit [] ∧
      ∀ o ∈ pl7wit.outputs, ∃ rest, o.name = "." ++ rest) :=
  ⟨by decide, @C7_empty_transformations_leading_dot L7wit as7wit pl7wit (by decide)⟩

/-- C9: a step's disambiguated key carries an init_params entry in the built
pipeline exactly when that step supplied a truthy (present and non-empty)
init_params mapping: truthy steps' params are stored under their own key,
and the key of a step with absent or empty init_params does not occur among
the stored keys. -/
theorem C9_init_params_iff_truthy {L : String → Except Err (List String)}
    {ts as : List Step} {pl : BuiltPipeline}
    (h : _build_pipeline L ts as = .ok pl) :
    ∀ i, i < (ts ++ as).length →
      (truthy ((ts ++ as).getD i ⟨"", "", none⟩).init_params = true →
        ((assignedKeys ((ts ++ as).map (fun s => s.primitive)) []).getD i "",
          ((ts ++ as).getD i ⟨"", "", none⟩).init_params.getD []) ∈ pl.init_params) ∧
      (truthy ((ts ++ as).getD i ⟨"", "", none⟩).init_params = false →
        (assignedKeys ((ts ++ as).map (fun s => s.primitive)) []).getD i ""
          ∉ pl.init_params.map Prod.fst) := by
  have hinit := (build_pipeline_ok h).2.1
  rw [paramsSpec_eq_filterMap] at hinit
  intro i hi
  have hkl : (assignedKeys ((ts ++ as).map (fun s => s.primitive)) []).length
      = (ts ++ as).length := by
    rw [assignedKeys_length]; simp
  have hik : i < (assignedKeys ((ts ++ as).map (fun s => s.primitive)) []).length := by
    omega
  have hgetDs : (ts ++ as).getD i ⟨"", "", none⟩ = (ts ++ as)[i] :=
    getD_eq_getElem' _ _ hi
  have hgetDk : (assignedKeys ((ts ++ as).map (fun s => s.primitive)) []).getD i ""
      = (assignedKeys ((ts ++ as).map (fun s => s.primitive)) [])[i] :=
    getD_eq_getElem' _ _ hik
  have hzl : i < ((ts ++ as).zip
      (assignedKeys ((ts ++ as).map (fun s => s.primitive)) [])).length := by
    rw [List.length_zip]
    omega
  constructor
  · intro ht
    rw [hinit]
    apply List.mem_filterMap.mpr
    refine ⟨((ts ++ as)[i],
      (assignedKeys ((ts ++ as).map (fun s => s.primitive)) [])[i]), ?_, ?_⟩
    · exact List.mem_iff_getElem.mpr ⟨i, hzl, List.getElem_zip⟩
    · rw [hgetDs] at ht
      rw [hgetDk, hgetDs]
      simp only [ht, if_pos]
  · intro ht hmem
    rw [hinit] at hmem
    obtain ⟨entry, hentry, hfst⟩ := List.mem_map.mp hmem
    obtain ⟨sk, hskmem, hsk⟩ := List.mem_filterMap.mp hentry
    by_cases htr : truthy sk.1.init_params
    · rw [if_pos htr] at hsk
      obtain ⟨j, hj, hjeq⟩ := List.mem_iff_getElem.mp hskmem
      have hjk : j < (assignedKeys ((ts ++ as).map (fun s => s.primitive)) []).length := by
        rw [List.length_zip] at hj
        omega
      have hjs : j < (ts ++ as).length := by
        rw [List.length_zip] at hj
        omega
      have hskval : sk = ((ts ++ as)[j],
          (assignedKeys ((ts ++ as).map (fun s => s.primitive)) [])[j]) := by
        rw [← hjeq]
        exact List.getElem_zip
      have hentry1 : entry.1 = sk.2 := by
        rw [← Option.some_inj.mp hsk]
      have hkeyeq : (assignedKeys ((ts ++ as).map (fun s => s.primitive)) [])[j]
          = (assignedKeys ((ts ++ as).map (fun s => s.primitive)) [])[i] := by
        have : sk.2 = (assignedKeys ((ts ++ as).map (fun s => s.primitive)) [])[j] := by
          rw [hskval]
        rw [← this, ← hentry1, hfst, hgetDk]
      have hij : j = i := ((assignedKeys_nodup _ []).getElem_inj_iff).mp hkeyeq
      subst hij
      rw [hskval] at htr
      rw [hgetDs] at ht
      simp only [ht] at htr
      exact absurd htr (by simp)
    · rw [if_neg htr] at hsk
      exact absurd hsk (by simp)

theorem C9_init_params_iff_truthy_witness :
    _build_pipeline L9wit ts9wit as9wit = .ok pl9wit ∧
    (∀ i, i < (ts9wit ++ as9wit).length →
      (truthy ((ts9wit ++ as9wit).getD i ⟨"", "", none⟩).init_params = true →
        ((assignedKeys ((ts9wit ++ as9wit).map (fun s => s.primitive)) []).getD i "",
          ((ts9wit ++ as9wit).getD i ⟨"", "", none⟩).init_params.getD []) ∈ pl9wit.init_params) ∧
      (truthy ((ts9wit ++ as9wit).getD i ⟨"", "", none⟩).init_params = false →
        (assignedKeys ((ts9wit ++ as9wit).map (fun s => s.primitive)) []).getD i ""
          ∉ pl9wit.init_params.map Prod.fst)) :=
  ⟨by decide, @C9_init_params_iff_truthy L9wit ts9wit as9wit pl9wit (by decide)⟩

theorem rowGet_append_of_ok {r s : Row} {c : String} {v : PyVal}
    (h : rowGet r c = .ok v) : rowGet (r ++ s) c = .ok v := by
  unfold rowGet at h ⊢
  cases hf : r.find? (fun p => p.1 == c) with
  | none => rw [hf] at h; exact absurd h (by simp)
  | some p =>
    rw [hf] at h
    rw [List.find?_append, hf]
    exact h

theorem find?_delColumn {vc c : String} (h : c ≠ vc) :
    ∀ r : Row, (delColumn r vc).find? (fun p => p.1 == c) = r.find? (fun p => p.1 == c) := by
  intro r
  induction r with
  | nil => rfl
  | cons p r ih =>
    by_cases hpvc : p.1 = vc
    · have hd : delColumn (p :: r) vc = delColumn r vc := by
        simp [delColumn, List.filter_cons, hpvc]
      have h1 : List.find? (fun x => x.1 == c) (p :: r)
          = List.find? (fun x => x.1 == c) r := by
        refine List.find?_cons_of_neg _ ?_
        simp only [beq_iff_eq, hpvc]
        exact fun hh => h hh.symm
      rw [hd, ih, ← h1]
    · have hd : delColumn (p :: r) vc = p :: delColumn r vc := by
        simp [delColumn, List.filter_cons, hpvc]
      rw [hd]
      by_cases hpc : (p.1 == c) = true
      · have h1 : List.find? (fun x => x.1 == c) (p :: delColumn r vc) = some p :=
          List.find?_cons_of_pos _ hpc
        have h2 : List.find? (fun x => x.1 == c) (p :: r) = some p :=
          List.find?_cons_of_pos _ hpc
        rw [h1, h2]
      · have h1 : List.find? (fun x => x.1 == c) (p :: delColumn r vc)
            = List.find? (fun x => x.1 == c) (delColumn r vc) :=
          List.find?_cons_of_neg _ (by simp [hpc])
        have h2 : List.find? (fun x => x.1 == c) (p :: r)
            = List.find? (fun x => x.1 == c) r :=
          List.find?_cons_of_neg _ (by simp [hpc])
        rw [h1, h2]
        exact ih

theorem rowGet_delColumn {r : Row} {vc c : String} (h : c ≠ vc) :
    rowGet (delColumn r vc) c = rowGet r c := by
  unfold rowGet
  rw [find?_delColumn h]

theorem mem_delColumn_ne {r : Row} {vc : String} {p : String × PyVal}
    (h : p ∈ delColumn r vc) : p.1 ≠ vc := by
  have := (List.mem_filter.mp h).2
  simpa using this

/-- Unfolding of the row applier at a numeric sampling frequency. -/
theorem apply_pipeline_eq_num
    (predict : BuiltPipeline → PyVal → PyVal → Except Err PyOut)
    (row : Row) (pl : BuiltPipeline) (vc : String) (q : ℚ) :
    _apply_pipeline predict row pl vc (.num q)
      = (rowGet row vc >>= fun amps => predict pl amps (.num q) >>= fun out =>
          pure (dictOfZip (get_output_names pl)
            (match out with | .tuple vs => vs | .single v => [v]))) := rfl

/-- Unfolding of the row applier at a list-valued sampling frequency (any
non-string value passes through unresolved). -/
theorem apply_pipeline_eq_numList
    (predict : BuiltPipeline → PyVal → PyVal → Except Err PyOut)
    (row : Row) (pl : BuiltPipeline) (vc : String) (l : List ℚ) :
    _apply_pipeline predict row pl vc (.numList l)
      = (rowGet row vc >>= fun amps => predict pl amps (.numList l) >>= fun out =>
          pure (dictOfZip (get_output_names pl)
            (match out with | .tuple vs => vs | .single v => [v]))) := rfl

/-- Unfolding of the row applier at a string sampling frequency: the value is
first resolved from the row's column of that name. -/
theorem apply_pipeline_eq_str
    (predict : BuiltPipeline → PyVal → PyVal → Except Err PyOut)
    (row : Row) (pl : BuiltPipeline) (vc : String) (col : String) :
    _apply_pipeline predict row pl vc (.str col)
      = (rowGet row col >>= fun sfv => rowGet row vc >>= fun amps =>
          predict pl amps sfv >>= fun out =>
          pure (dictOfZip (get_output_names pl)
            (match out with | .tuple vs => vs | .single v => [v]))) := rfl

theorem apply_pipeline_ok_rowGet {predict : BuiltPipeline → PyVal → PyVal → Except Err PyOut}
    {row : Row} {pl : BuiltPipeline} {vc : String} {sf : PyVal} {feat : Row}
    (h : _apply_pipeline predict row pl vc sf = .ok feat) :
    ∃ v, rowGet row vc = .ok v := by
  cases sf with
  | str col =>
    rw [apply_pipeline_eq_str] at h
    cases hcol : rowGet row col with
    | error e =>
      rw [hcol, except_bind_error] at h
      exact absurd h (by simp)
    | ok sfv =>
      rw [hcol, except_bind_ok] at h
      cases hamp : rowGet row vc with
      | error e =>
        rw [hamp, except_bind_error] at h
        exact absurd h (by simp)
      | ok v => exact ⟨v, rfl⟩
  | num q =>
    rw [apply_pipeline_eq_num] at h
    cases hamp : rowGet row vc with
    | error e =>
      rw [hamp, except_bind_error] at h
      exact absurd h (by simp)
    | ok v => exact ⟨v, rfl⟩
  | numList l =>
    rw [apply_pipeline_eq_numList] at h
    cases hamp : rowGet row vc with
    | error e =>
      rw [hamp, except_bind_error] at h
      exact absurd h (by simp)
    | ok v => exact ⟨v, rfl⟩

/-- Folding Python dict insertion over fresh, pairwise-distinct keys is a
plain append. -/
theorem foldl_dictInsert_append {α : Type _} :
    ∀ (ps acc : List (String × α)),
      (ps.map Prod.fst).Nodup →
      (∀ k ∈ ps.map Prod.fst, k ∉ acc.map Prod.fst) →
      ps.foldl (fun d p => dictInsert d p.1 p.2) acc = acc ++ ps := by
  intro ps
  induction ps with
  | nil => intro acc _ _; simp
  | cons p ps ih =>
    intro acc hnd hdisj
    rw [List.foldl_cons, dictInsert_of_not_mem (hdisj p.1 (by simp))]
    have hnd0 : (p.1 :: ps.map Prod.fst).Nodup := hnd
    have hnd' : (ps.map Prod.fst).Nodup := (List.nodup_cons.mp hnd0).2
    have hhead : p.1 ∉ ps.map Prod.fst := (List.nodup_cons.mp hnd0).1
    have hdisj' : ∀ k ∈ ps.map Prod.fst, k ∉ (acc ++ [(p.1, p.2)]).map Prod.fst := by
      intro k hk
      simp only [List.map_append, List.mem_append, List.map_cons, List.map_nil,
        List.mem_singleton, not_or]
      refine ⟨hdisj k (by simp [hk]), ?_⟩
      intro hkp
      exact hhead (hkp ▸ hk)
    rw [ih (acc ++ [(p.1, p.2)]) hnd' hdisj']
    simp

theorem map_fst_zip_eq_take {α : Type _} :
    ∀ (l₁ : List String) (l₂ : List α),
      (l₁.zip l₂).map Prod.fst = l₁.take l₂.length := by
  intro l₁
  induction l₁ with
  | nil => intro l₂; simp
  | cons a l₁ ih =>
    intro l₂
    cases l₂ with
    | nil => simp
    | cons b l₂ => simp [ih]

/-- `dict(zip(names, vals))` with pairwise-distinct names is just the zip. -/
theorem dictOfZip_eq_zip (names : List String) (vals : List PyVal)
    (h : names.Nodup) : dictOfZip names vals = names.zip vals := by
  unfold dictOfZip
  rw [foldl_dictInsert_append (names.zip vals) [] ?_ (by simp)]
  · simp
  · rw [map_fst_zip_eq_take]
    exact h.sublist (List.take_sublist _ _)

/-- C5: when `sampling_frequency` is a string, the row applier resolves it
to that row's own value in the column of that name — a row whose column
holds the number `q` is processed exactly as if the literal `q` had been
passed; when it is numeric, the row is used only for its values column, so
any two rows agreeing there are processed identically with that same
literal. -/
theorem C5_sampling_frequency_resolution
    (predict : BuiltPipeline → PyVal → PyVal → Except Err PyOut)
    (pl : BuiltPipeline) (vc col : String) (q : ℚ) :
    (∀ row : Row, rowGet row col = .ok (.num q) →
      _apply_pipeline predict row pl vc (.str col)
        = _apply_pipeline predict row pl vc (.num q)) ∧
    (∀ r₁ r₂ : Row, rowGet r₁ vc = rowGet r₂ vc →
      _apply_pipeline predict r₁ pl vc (.num q)
        = _apply_pipeline predict r₂ pl vc (.num q)) := by
  constructor
  · intro row hcol
    rw [apply_pipeline_eq_str, apply_pipeline_eq_num, hcol, except_bind_ok]
  · intro r₁ r₂ hvals
    rw [apply_pipeline_eq_num, apply_pipeline_eq_num, hvals]

theorem C5_sampling_frequency_resolution_witness :
    rowGet [("values", PyVal.numList [1]), ("sf", PyVal.num 5)] "sf" = .ok (.num 5) ∧
    _apply_pipeline (fun _ _ sf => .ok (.single sf))
        [("values", PyVal.numList [1]), ("sf", PyVal.num 5)] plRowWit "values" (.str "sf")
      = _apply_pipeline (fun _ _ sf => .ok (.single sf))
        [("values", PyVal.numList [1]), ("sf", PyVal.num 5)] plRowWit "values" (.num 5) :=
  ⟨by decide,
    (C5_sampling_frequency_resolution (fun _ _ sf => .ok (.single sf)) plRowWit
      "values" "sf" 5).1 _ (by decide)⟩

/-- C6 counterexample: against a pipeline declaring two output names, a
single non-tuple predict result is wrapped into a one-element sequence and
the zip truncates, so the returned record does NOT have exactly the declared
output names as its fields — refuting the claim's final clause as a
universal statement about every pipeline execution result. -/
theorem C6_counterexample :
    _apply_pipeline (fun _ _ _ => .ok (.single (.num 5)))
        [("values", PyVal.numList [])] pl6wit "values" (.num 1)
      = .ok [("t.x.f", PyVal.num 5)] ∧
    get_output_names pl6wit = ["t.x.f", "t.y.g"] ∧
    ([("t.x.f", PyVal.num 5)] : Row).map Prod.fst ≠ get_output_names pl6wit :=
  ⟨by decide, by decide, by decide⟩

theorem normalizeOut_eq (out : PyOut) :
    (match out with | PyOut.tuple vs => vs | PyOut.single v => [v]) = normalizeOut out := by
  cases out <;> rfl

/-- C6 (amended): the row applier normalizes the predict result before
zipping — a tuple is zipped as-is, element by element, and a single
non-tuple result is wrapped into a one-element sequence; with pairwise
distinct declared output names the returned record is exactly the zip of
the names with the normalized result (truncated to the shorter list), and
its fields are exactly the declared output names whenever the normalized
result has at least as many elements as there are names. -/
theorem C6_record_normalize_zip
    (predict : BuiltPipeline → PyVal → PyVal → Except Err PyOut)
    (row : Row) (pl : BuiltPipeline) (vc : String) (q : ℚ)
    (amps : PyVal) (out : PyOut)
    (hamps : rowGet row vc = .ok amps)
    (hpred : predict pl amps (.num q) = .ok out)
    (hnd : (get_output_names pl).Nodup) :
    _apply_pipeline predict row pl vc (.num q)
      = .ok ((get_output_names pl).zip (normalizeOut out)) ∧
    ((normalizeOut out).length ≥ (get_output_names pl).length →
      ((get_output_names pl).zip (normalizeOut out)).map Prod.fst
        = get_output_names pl) := by
  refine ⟨?_, ?_⟩
  · rw [apply_pipeline_eq_num, hamps, except_bind_ok]
    simp only [hpred, except_bind_ok, normalizeOut_eq]
    rw [dictOfZip_eq_zip _ _ hnd]
    rfl
  · intro hlen
    rw [map_fst_zip_eq_take]
    exact List.take_of_length_le hlen

theorem C6_record_normalize_zip_witness :
    rowGet [("values", PyVal.numList [])] "values" = Except.ok (PyVal.numList []) ∧
    (get_output_names pl6wit).Nodup ∧
    _apply_pipeline (fun _ _ _ => Except.ok (PyOut.tuple [PyVal.num 1, PyVal.num 2]))
        [("values", PyVal.numList [])] pl6wit "values" (.num 1)
      = .ok ((get_output_names pl6wit).zip [PyVal.num 1, PyVal.num 2]) :=
  ⟨by decide, by decide,
    (C6_record_normalize_zip (fun _ _ _ => Except.ok (PyOut.tuple [PyVal.num 1, PyVal.num 2]))
      [("values", PyVal.numList [])] pl6wit "values" 1 (PyVal.numList [])
      (PyOut.tuple [PyVal.num 1, PyVal.num 2]) (by decide) (by decide) (by decide)).1⟩

theorem mapM_except_ok {α β ε : Type _} (f : α → Except ε β) :
    ∀ (l : List α) (res : List β), l.mapM f = .ok res →
      res.length = l.length ∧
      ∀ (i : ℕ) (d : α) (d' : β), i < l.length → f (l.getD i d) = .ok (res.getD i d') := by
  intro l
  induction l with
  | nil =>
    intro res h
    have hres : res = [] := by
      rw [List.mapM_nil] at h
      have h0 : (Except.ok ([] : List β) : Except ε (List β)) = .ok res := h
      exact (Except.ok.inj h0).symm
    subst hres
    exact ⟨rfl, fun i d d' hi => absurd hi (by simp)⟩
  | cons a l ih =>
    intro res h
    rw [List.mapM_cons] at h
    cases hfa : f a with
    | error e =>
      rw [hfa, except_bind_error] at h
      exact absurd h (by simp)
    | ok b =>
      rw [hfa, except_bind_ok] at h
      cases hfl : l.mapM f with
      | error e =>
        rw [hfl, except_bind_error] at h
        exact absurd h (by simp)
      | ok bs =>
        rw [hfl, except_bind_ok] at h
        have hres : res = b :: bs := by
          have h0 : (Except.ok (b :: bs) : Except ε (List β)) = .ok res := h
          exact (Except.ok.inj h0).symm
        subst hres
        obtain ⟨hlen, hptw⟩ := ih bs hfl
        refine ⟨by simp [hlen], ?_⟩
        intro i d d' hi
        cases i with
        | zero => simpa using hfa
        | succ i =>
          have hi' : i < l.length := by simpa using hi
          simpa using hptw i d d' hi'

/-- Unfolding of `process_signals` once the pipeline is built. -/
theorem process_signals_eq {L : String → Except Err (List String)}
    {predict : BuiltPipeline → PyVal → PyVal → Except Err PyOut}
    {data : List Row} {ts as : List Step} {sf : PyVal} {vc : String} {keep : Bool}
    {pl : BuiltPipeline}
    (hpl : _build_pipeline L ts as = .ok pl) :
    process_signals L predict data ts as sf vc keep
      = (data.mapM (fun row => _apply_pipeline predict row pl vc sf) >>= fun features =>
          if keep then pure ((data.zip features).map (fun rf => rf.1 ++ rf.2))
          else pure (((data.zip features).map (fun rf => rf.1 ++ rf.2)).map
            (fun row => delColumn row vc))) := by
  simp only [process_signals, hpl, except_bind_ok]

/-- C4: on success `process_signals` returns one output row per input row in
input order; each output row is the original row followed by that row's
feature record, with the values column removed from the result when
`keep_values` is false; when `keep_values` is false no output cell carries
the values-column label, when it is true the values column reads unchanged,
and every non-values original column reads unchanged in either mode. -/
theorem C4_frame_effect {L : String → Except Err (List String)}
    {predict : BuiltPipeline → PyVal → PyVal → Except Err PyOut}
    {data : List Row} {ts as : List Step} {sf : PyVal} {vc : String} {keep : Bool}
    {pl : BuiltPipeline} {out : List Row}
    (hpl : _build_pipeline L ts as = .ok pl)
    (hrun : process_signals L predict data ts as sf vc keep = .ok out) :
    out.length = data.length ∧
    ∀ i, i < data.length →
      ∃ feat, _apply_pipeline predict (data.getD i []) pl vc sf = .ok feat ∧
        out.getD i [] = (if keep then data.getD i [] ++ feat
          else delColumn (data.getD i [] ++ feat) vc) ∧
        (keep = false → ∀ p ∈ out.getD i [], p.1 ≠ vc) ∧
        (keep = true → rowGet (out.getD i []) vc = rowGet (data.getD i []) vc) ∧
        (∀ c, c ≠ vc → ∀ v, rowGet (data.getD i []) c = .ok v →
          rowGet (out.getD i []) c = .ok v) := by
  rw [process_signals_eq hpl] at hrun
  cases hmap : data.mapM (fun row => _apply_pipeline predict row pl vc sf) with
  | error e =>
    rw [hmap, except_bind_error] at hrun
    exact absurd hrun (by simp)
  | ok features =>
    rw [hmap, except_bind_ok] at hrun
    obtain ⟨hflen, hfptw⟩ := mapM_except_ok _ data features hmap
    have hout : out = (if keep then (data.zip features).map (fun rf => rf.1 ++ rf.2)
        else ((data.zip features).map (fun rf => rf.1 ++ rf.2)).map
          (fun row => delColumn row vc)) := by
      cases keep
      · simp only [Bool.false_eq_true, if_false] at hrun ⊢
        exact (Except.ok.inj hrun).symm
      · simp only [if_true] at hrun ⊢
        exact (Except.ok.inj hrun).symm
    have hmlen : ((data.zip features).map (fun rf => rf.1 ++ rf.2)).length = data.length := by
      rw [List.length_map, List.length_zip, hflen]
      exact Nat.min_self _
    constructor
    · rw [hout]
      cases keep
      · simpa using hmlen
      · simpa using hmlen
    · intro i hi
      have hif : i < features.length := by omega
      have hiz : i < (data.zip features).length := by
        rw [List.length_zip]
        omega
      have him : i < ((data.zip features).map (fun rf => rf.1 ++ rf.2)).length := by
        rw [List.length_map]
        exact hiz
      have hmid : ((data.zip features).map (fun rf => rf.1 ++ rf.2)).getD i []
          = data.getD i [] ++ features.getD i [] := by
        rw [getD_eq_getElem' _ _ him, List.getElem_map, List.getElem_zip,
          getD_eq_getElem' _ _ hi, getD_eq_getElem' _ _ hif]
      have happ : _apply_pipeline predict (data.getD i []) pl vc sf
          = .ok (features.getD i []) := hfptw i [] [] hi
      refine ⟨features.getD i [], happ, ?_⟩
      obtain ⟨v0, hv0⟩ := apply_pipeline_ok_rowGet happ
      cases keep
      · have him2 : i < (((data.zip features).map (fun rf => rf.1 ++ rf.2)).map
            (fun row => delColumn row vc)).length := by
          rw [List.length_map]
          exact him
        have houti : out.getD i []
            = delColumn (data.getD i [] ++ features.getD i []) vc := by
          rw [hout]
          simp only [Bool.false_eq_true, if_false]
          rw [getD_eq_getElem' _ _ him2, List.getElem_map, ← getD_eq_getElem' _ [] him, hmid]
        refine ⟨by simp only [Bool.false_eq_true, if_false]; exact houti, ?_, ?_, ?_⟩
        · intro _ p hp
          rw [houti] at hp
          exact mem_delColumn_ne hp
        · intro habs
          exact absurd habs (by simp)
        · intro c hc v hv
          rw [houti, rowGet_delColumn hc]
          exact rowGet_append_of_ok hv
      · have houti : out.getD i [] = data.getD i [] ++ features.getD i [] := by
          rw [hout]
          simp only [if_true]
          exact hmid
        refine ⟨by simp only [if_true]; exact houti, ?_, ?_, ?_⟩
        · intro habs
          exact absurd habs (by simp)
        · intro _
          rw [houti, hv0]
          exact rowGet_append_of_ok hv0
        · intro c hc v hv
          rw [houti]
          exact rowGet_append_of_ok hv

theorem C4_frame_effect_witness :
    _build_pipeline L4wit ts4wit as4wit = .ok pl4wit ∧
    process_signals L4wit (fun _ _ _ => .ok (.single (.num 7))) data4wit ts4wit as4wit
        (.num 2) "values" false = .ok out4wit ∧
    out4wit.length = data4wit.length :=
  ⟨by decide, by decide,
    (@C4_frame_effect L4wit (fun _ _ _ => .ok (.single (.num 7))) data4wit ts4wit as4wit
      (.num 2) "values" false pl4wit out4wit (by decide) (by decide)).1⟩

theorem aggStep_ok_exists {L : String → Except Err (List String)} {pfx : String}
    (st : BState) (b : Step) {flds : List String}
    (hb : L b.primitive = .ok flds) : ∃ st1, aggStep L pfx st b = .ok st1 :=
  ⟨_, by simp only [aggStep, hb, except_bind_ok]; rfl⟩

theorem foldlM_aggStep_error (L : String → Except Err (List String)) (pfx : String) :
    ∀ (pre : List Step) (a : Step) (post : List Step) (st : BState) (e : Err),
      (∀ b ∈ pre, ∃ flds, L b.primitive = .ok flds) →
      L a.primitive = .error e →
      (pre ++ a :: post).foldlM (aggStep L pfx) st = .error e := by
  intro pre
  induction pre with
  | nil =>
    intro a post st e _ hL
    rw [List.nil_append, List.foldlM_cons, aggStep_error st a hL, except_bind_error]
  | cons b pre ih =>
    intro a post st e hpre hL
    rw [List.cons_append, List.foldlM_cons]
    obtain ⟨flds, hb⟩ := hpre b (by simp)
    obtain ⟨st1, hst1⟩ := aggStep_ok_exists st b hb
    rw [hst1, except_bind_ok]
    exact ih a post st1 e (fun x hx => hpre x (by simp [hx])) hL

theorem mapM_error_of_first {α β ε : Type _} (f : α → Except ε β) :
    ∀ (pre : List α) (x : α) (post : List α) (e : ε),
      (∀ r ∈ pre, ∃ y, f r = .ok y) → f x = .error e →
      (pre ++ x :: post).mapM f = .error e := by
  intro pre
  induction pre with
  | nil =>
    intro x post e _ hx
    rw [List.nil_append, List.mapM_cons, hx, except_bind_error]
  | cons r pre ih =>
    intro x post e hpre hx
    rw [List.cons_append, List.mapM_cons]
    obtain ⟨y, hy⟩ := hpre r (by simp)
    rw [hy, except_bind_ok, ih x post e (fun z hz => hpre z (by simp [hz])) hx,
      except_bind_error]

/-- C10: no error is caught or handled locally.  (i) a failing primitive
lookup in the aggregation loop (earlier lookups succeeding) makes
`process_signals` return that very error; (ii) with the pipeline built, the
first row on which the row applier fails makes `process_signals` return
that row's error unchanged; (iii) a missing values column surfaces as that
`KeyError` from the row applier; (iv) an error raised by the execution
collaborator surfaces unchanged from the row applier. -/
theorem C10_errors_propagate :
    (∀ (L : String → Except Err (List String)) predict (data : List Row)
        (ts pre : List Step) (a : Step) (post : List Step) sf vc keep (e : Err),
      (∀ b ∈ pre, ∃ flds, L b.primitive = .ok flds) →
      L a.primitive = .error e →
      process_signals L predict data ts (pre ++ a :: post) sf vc keep = .error e) ∧
    (∀ (L : String → Except Err (List String)) predict (pre : List Row) (row : Row)
        (post : List Row) (ts as : List Step) sf vc keep pl (e : Err),
      _build_pipeline L ts as = .ok pl →
      (∀ r ∈ pre, ∃ feat, _apply_pipeline predict r pl vc sf = .ok feat) →
      _apply_pipeline predict row pl vc sf = .error e →
      process_signals L predict (pre ++ row :: post) ts as sf vc keep = .error e) ∧
    (∀ predict (row : Row) pl (vc : String) (q : ℚ),
      row.find? (fun p => p.1 == vc) = none →
      _apply_pipeline predict row pl vc (.num q) = .error (.keyError vc)) ∧
    (∀ predict (row : Row) pl (vc : String) (q : ℚ) (amps : PyVal) (e : Err),
      rowGet row vc = .ok amps →
      predict pl amps (.num q) = .error e →
      _apply_pipeline predict row pl vc (.num q) = .error e) := by
  refine ⟨?_, ?_, ?_, ?_⟩
  · intro L predict data ts pre a post sf vc keep e hpre hL
    have hbuild : _build_pipeline L ts (pre ++ a :: post) = .error e := by
      simp only [_build_pipeline]
      rw [foldlM_aggStep_error L _ pre a post _ e hpre hL, except_bind_error]
    simp only [process_signals, hbuild, except_bind_error]
  · intro L predict pre row post ts as sf vc keep pl e hpl hpre happly
    rw [process_signals_eq hpl]
    rw [mapM_error_of_first _ pre row post e hpre happly, except_bind_error]
  · intro predict row pl vc q hnone
    rw [apply_pipeline_eq_num]
    have hget : rowGet row vc = .error (.keyError vc) := by
      unfold rowGet
      rw [hnone]
    rw [hget, except_bind_error]
  · intro predict row pl vc q amps e hget hpred
    rw [apply_pipeline_eq_num, hget, except_bind_ok, hpred, except_bind_error]

theorem C10_errors_propagate_witness :
    process_signals (fun _ => .error (.primitiveError "unknown primitive"))
        (fun _ _ _ => .ok (.single (.num 0))) [] [] [⟨"a", "p", none⟩]
        (.num 1) "values" false
      = .error (.primitiveError "unknown primitive") ∧
    _apply_pipeline (fun _ _ _ => .error (.primitiveError "shape mismatch"))
        [("values", PyVal.numList [1])] plRowWit "values" (.num 1)
      = .error (.primitiveError "shape mismatch") ∧
    _apply_pipeline (fun _ _ _ => .ok (.single (.num 0)))
        [("other", PyVal.num 1)] plRowWit "values" (.num 1)
      = .error (.keyError "values") := by
  refine ⟨?_, ?_, ?_⟩
  · exact C10_errors_propagate.1 (fun _ => .error (.primitiveError "unknown primitive"))
      (fun _ _ _ => .ok (.single (.num 0))) [] [] [] ⟨"a", "p", none⟩ []
      (.num 1) "values" false (.primitiveError "unknown primitive")
      (by intro b hb; exact absurd hb (by simp)) (by decide)
  · exact C10_errors_propagate.2.2.2 (fun _ _ _ => .error (.primitiveError "shape mismatch"))
      [("values", PyVal.numList [1])] plRowWit "values" 1 (.numList [1])
      (.primitiveError "shape mismatch") (by decide) (by decide)
  · exact C10_errors_propagate.2.2.1 (fun _ _ _ => .ok (.single (.num 0)))
      [("other", PyVal.num 1)] plRowWit "values" 1 (by decide)

theorem dftRe_length (x : List ℝ) : (dftRe x).length = x.length := by
  simp [dftRe]

theorem fftfreq_length (n : ℕ) (d : ℚ) : (fftfreq n d).length = n := by
  simp [fftfreq]

theorem fft_real_snd (x : List ℝ) (fs : ℚ) :
    (fft_real x fs).2 = fftfreq x.length fs := by
  have h : (fft_real x fs).2 = fftfreq (dftRe x).length fs := rfl
  rw [h, dftRe_length]

theorem fftfreq_getD {n k : ℕ} (d : ℚ) (hk : k < n) :
    (fftfreq n d).getD k 0
      = (if k < (n + 1) / 2 then (k : ℚ) else (k : ℚ) - (n : ℚ)) / ((n : ℚ) * d) := by
  have hk' : k < (fftfreq n d).length := by rw [fftfreq_length]; exact hk
  rw [getD_eq_getElem' _ _ hk']
  simp [fftfreq]

/-- C3 counterexample: for the two-sample input at sampling frequency 2 the
frequency bins returned by `fft_real` are NOT the cycles-per-sample-interval
frequencies multiplied by the sampling frequency (the code passes the
sampling frequency to `np.fft.fftfreq` as the sample spacing, i.e. it
divides): the code yields `[0, -1/4]`, the claim predicts `[0, -1]`. -/
theorem C3_fft_real_counterexample :
    (fft_real [(0 : ℝ), 0] 2).2
      ≠ [cyclesPerSampleInterval 2 0 * 2, cyclesPerSampleInterval 2 1 * 2] := by
  have hlen : ([(0 : ℝ), 0] : List ℝ).length = 2 := rfl
  rw [fft_real_snd, hlen]
  have hf : fftfreq 2 2 = [0, -(1 / 4)] := by
    norm_num [fftfreq, List.range_succ]
  have hc0 : cyclesPerSampleInterval 2 0 = 0 := by
    norm_num [cyclesPerSampleInterval]
  have hc1 : cyclesPerSampleInterval 2 1 = -(1 / 2) := by
    norm_num [cyclesPerSampleInterval]
  rw [hf, hc0, hc1]
  intro hcontra
  simp only [List.cons.injEq] at hcontra
  have h4 : -(1 / 4 : ℚ) = -(1 / 2) * 2 := hcontra.2.1
  norm_num at h4

/-- C3 (amended): for every amplitude sequence and positive sampling
frequency, `fft_real` returns the real component of the discrete Fourier
transform of the amplitudes (`Σⱼ xⱼ cos(2π jk/n)` at bin `k`), together
with a frequency-bin vector of length equal to the input length whose
values are the cycles-per-sample-interval frequencies DIVIDED by the
sampling frequency (numpy's `fftfreq` receives the sampling frequency as
its sample-spacing argument). -/
theorem C3_fft_real_divides (x : List ℝ) (fs : ℚ) (_hfs : 0 < fs) :
    ((fft_real x fs).1.length = x.length ∧
      ∀ k, k < x.length → (fft_real x fs).1.getD k 0
        = ∑ j ∈ Finset.range x.length,
            x.getD j 0 * Real.cos (2 * Real.pi * (j * k : ℕ) / (x.length : ℕ))) ∧
    (fft_real x fs).2.length = x.length ∧
    ∀ k, k < x.length →
      (fft_real x fs).2.getD k 0 = cyclesPerSampleInterval x.length k / fs := by
  have h1 : (fft_real x fs).1 = dftRe x := rfl
  refine ⟨⟨by rw [h1, dftRe_length], ?_⟩, by rw [fft_real_snd, fftfreq_length], ?_⟩
  · intro k hk
    have hk' : k < (dftRe x).length := by rw [dftRe_length]; exact hk
    rw [h1, getD_eq_getElem' _ _ hk']
    simp [dftRe]
  · intro k hk
    rw [fft_real_snd, fftfreq_getD fs hk, cyclesPerSampleInterval, div_div]

theorem C3_fft_real_divides_witness :
    (0 : ℚ) < 2 ∧ (fft_real [(0 : ℝ), 0] 2).2.length = ([(0 : ℝ), 0] : List ℝ).length :=
  ⟨by norm_num, (C3_fft_real_divides [(0 : ℝ), 0] 2 (by norm_num)).2.1⟩

/-- C8: on the row whose values are `[1,2,3,4]` with sampling frequency 1,
the pipeline of one FFT transformation followed by the take-first-frequency-
bin aggregation yields a record with exactly one field whose value is `0`,
the zero-frequency bin — the first element of `fft_real`'s
`frequency_values` output. -/
theorem C8_fft_first_bin_row :
    _build_pipeline L8wit ts8wit as8wit = .ok pl8wit ∧
    _apply_pipeline predictFFTFirstBin
        [("values", PyVal.numList [1, 2, 3, 4])] pl8wit "values" (.num 1)
      = .ok [("fft.first.value", PyVal.num 0)] ∧
    (fft_real (([1, 2, 3, 4] : List ℚ).map (fun a => (a : ℝ))) 1).2.headD 0 = 0 := by
  have hv : (fft_real (([1, 2, 3, 4] : List ℚ).map (fun a => (a : ℝ))) 1).2.headD 0 = 0 := by
    rw [fft_real_snd]
    have hlen : ((([1, 2, 3, 4] : List ℚ).map (fun a => (a : ℝ))) : List ℝ).length = 4 := by
      simp
    rw [hlen]
    have hf : fftfreq 4 1 = [0, 1 / 4, -(1 / 2), -(1 / 4)] := by
      norm_num [fftfreq, List.range_succ]
    rw [hf]
    rfl
  refine ⟨by decide, ?_, hv⟩
  rw [apply_pipeline_eq_num]
  have hget : rowGet [("values", PyVal.numList [1, 2, 3, 4])] "values"
      = .ok (.numList [1, 2, 3, 4]) := rfl
  rw [hget, except_bind_ok]
  have hstep : predictFFTFirstBin pl8wit (.numList [1, 2, 3, 4]) (.num 1)
      = .ok (.single (.num
        ((fft_real (([1, 2, 3, 4] : List ℚ).map (fun a => (a : ℝ))) 1).2.headD 0))) := rfl
  rw [hstep, hv, except_bind_ok]
  rfl
